import Mathlib

/-!
Verification of the BCH encoder/decoder repository.

GF(2) polynomials are represented bit-packed in a `Nat`: bit `i` is the
coefficient of `x^i`.  Addition is `^^^` (XOR), which matches both the
integer-based arithmetic of `bch_terminal_implementation.py` and sympy's
`Poly` arithmetic over `GF(2)` used by `api/bch/bch.py` and
`api/bch/utils.py`.

The Python loops are modelled by structural recursion on an explicit
fuel argument chosen large enough to cover every iteration the Python
loop performs (each recursive definition is accompanied by the argument
for why the fuel suffices); this keeps every definition executable by
kernel reduction.
-/

/-- Loop computing Python's `int.bit_length()`: the number of halvings
until the value reaches zero.  Fuel `n` suffices since each step at
least halves a nonzero value. -/
def bit_length_go : Nat → Nat → Nat
  | 0, _ => 0
  | fuel + 1, n => if n = 0 then 0 else bit_length_go fuel (n / 2) + 1

/-- Python's `int.bit_length()` (identical to Mathlib's `Nat.size`,
see `bit_length_eq`). -/
def bit_length (n : Nat) : Nat := bit_length_go n n

/-- Python's `x.bit_length() - 1`, the degree of the bit-packed
polynomial (`-1` for the zero polynomial), as used in `poly_div`. -/
def pdeg (n : Nat) : Int := (bit_length n : Int) - 1

/-- Loop of `poly_mul` from `bch_terminal_implementation.py`: while `b`
is nonzero, XOR `a` into the result if the low bit of `b` is set, then
shift `a` left and `b` right.  Fuel `b` suffices since `b` strictly
decreases. -/
def poly_mul_go : Nat → Nat → Nat → Nat
  | 0, _, _ => 0
  | fuel + 1, a, b =>
    if b = 0 then 0
    else (if b &&& 1 = 1 then a else 0) ^^^ poly_mul_go fuel (a <<< 1) (b >>> 1)

/-- Source `poly_mul` from `bch_terminal_implementation.py`: carry-less
(GF(2)) polynomial multiplication. -/
def poly_mul (a b : Nat) : Nat := poly_mul_go b a b

/-- Loop of `poly_div`: while the dividend is nonzero and its degree is
at least the divisor's, XOR a shifted copy of the divisor onto the
dividend.  Fuel `bit_length dividend` suffices for a nonzero divisor
because each iteration clears the dividend's top bit. -/
def polyDivGo (divisor : Nat) : Nat → Nat → Nat → Nat × Nat
  | 0, quotient, dividend => (quotient, dividend)
  | fuel + 1, quotient, dividend =>
    if pdeg divisor ≤ pdeg dividend ∧ dividend ≠ 0 then
      let shift := bit_length dividend - bit_length divisor
      polyDivGo divisor fuel (quotient ^^^ (1 <<< shift))
        (dividend ^^^ (divisor <<< shift))
    else (quotient, dividend)

/-- Source `poly_div` from `bch_terminal_implementation.py`: GF(2)
polynomial division, returning `(quotient, remainder)`. -/
def poly_div (dividend divisor : Nat) : Nat × Nat :=
  polyDivGo divisor (bit_length dividend) 0 dividend

/-- GF(2) polynomial remainder; sympy's `%` on `Poly` over `GF(2)`
(used in `api/bch/utils.py` and `api/bch/bch.py`) is this operation on
the bit-packed representation. -/
def gf2_mod (a b : Nat) : Nat := (poly_div a b).2

/-- Source `gf16_generate_tables` from `bch_terminal_implementation.py`:
exp/log tables for GF(16) over the primitive polynomial `0b10011`; the
exp table is doubled (30 entries) by periodic repetition. -/
def gf16_generate_tables : List Nat × List Nat :=
  let p : Nat := 19
  let step := fun (s : List Nat × List Nat × Nat) (i : Nat) =>
    let et := s.1.set i s.2.2
    let lt := s.2.1.set s.2.2 i
    let x := s.2.2 <<< 1
    let x := if x &&& 16 ≠ 0 then x ^^^ p else x
    (et, lt, x)
  let s := (List.range 15).foldl step (List.replicate 30 0, List.replicate 16 0, 1)
  let et := (List.range' 15 15).foldl (fun et i => et.set i (et.getD (i - 15) 0)) s.1
  (et, s.2.1)

def exp_table : List Nat := gf16_generate_tables.1

def log_table : List Nat := gf16_generate_tables.2

/-- Source `gf16_add`: addition in GF(16) is XOR. -/
def gf16_add (a b : Nat) : Nat := a ^^^ b

/-- Source `gf16_mul`: multiplication in GF(16) via the log/exp tables.
List indexing out of range would raise in Python; `getD` is only ever
used in range by the claims below. -/
def gf16_mul (a b : Nat) (et lt : List Nat) : Nat :=
  if a = 0 ∨ b = 0 then 0
  else et.getD ((lt.getD a 0 + lt.getD b 0) % 15) 0

/-- Source `gf16_inv`: multiplicative inverse in GF(16); `none` models
the `ZeroDivisionError` raised on `a = 0`. -/
def gf16_inv (a : Nat) (et lt : List Nat) : Option Nat :=
  if a = 0 then none
  else some (et.getD ((15 - lt.getD a 0) % 15) 0)

/-- Source `codeword_to_bits`: most-significant-bit-first bit list of an
`n`-bit codeword integer. -/
def codeword_to_bits (codeword_int n : Nat) : List Nat :=
  (List.range n).map (fun i => (codeword_int >>> (n - 1 - i)) &&& 1)

/-- Source `compute_syndromes`: `S_i = Σ_j bits[j]·α^((i·j) % 15)` for
`i = 1..4`, accumulated with XOR; `j` is the (MSB-first) list index. -/
def compute_syndromes (codeword_bits : List Nat) (et lt : List Nat) : List Nat :=
  (List.range' 1 4).map (fun i =>
    (List.range codeword_bits.length).foldl
      (fun s j =>
        if codeword_bits.getD j 0 ≠ 0 then gf16_add s (et.getD ((i * j) % 15) 0) else s)
      0)

/-- Source `solve_error_locator`: the closed-form t = 2 error-locator
solve.  The outer `none` models the `return None` on `D = 0`; the inner
`none` branch is unreachable because `gf16_inv` is only applied to
`D ≠ 0`, and a syndrome list that is not a quadruple would raise in
Python (`decode` always passes a quadruple). -/
def solve_error_locator (syndromes : List Nat) (et lt : List Nat) : Option (List Nat) :=
  match syndromes with
  | [S1, S2, S3, S4] =>
    let D := gf16_add (gf16_mul S1 S3 et lt) (gf16_mul S2 S2 et lt)
    if D = 0 then none
    else
      match gf16_inv D et lt with
      | none => none
      | some invD =>
        let N1 := gf16_add (gf16_mul S3 S3 et lt) (gf16_mul S2 S4 et lt)
        let s1 := gf16_mul N1 invD et lt
        let N2 := gf16_add (gf16_mul S1 S4 et lt) (gf16_mul S2 S3 et lt)
        let s2 := gf16_mul N2 invD et lt
        some [1, s1, s2]
  | _ => none

/-- Division in GF(16) as the spec writes `x / D`: multiplication by the
inverse (0 as the unreachable value when the divisor is 0). -/
def gf16_div (a b : Nat) (et lt : List Nat) : Nat :=
  match gf16_inv b et lt with
  | none => 0
  | some i => gf16_mul a i et lt

/-- Spec-side description of the t = 2 solve (section 4.4 step 3 of the
design): determinant `D = S1·S3 + S2·S2`; Uncorrectable iff `D = 0`;
otherwise `σ1 = (S3·S3 + S2·S4)/D`, `σ2 = (S1·S4 + S2·S3)/D` and the
locator is `x^2 + σ1·x + σ2`, i.e. the coefficient list `[1, σ1, σ2]`. -/
def solveErrorLocatorSpec (S1 S2 S3 S4 : Nat) (et lt : List Nat) : Option (List Nat) :=
  let D := gf16_add (gf16_mul S1 S3 et lt) (gf16_mul S2 S2 et lt)
  if D = 0 then none
  else
    some [1,
      gf16_div (gf16_add (gf16_mul S3 S3 et lt) (gf16_mul S2 S4 et lt)) D et lt,
      gf16_div (gf16_add (gf16_mul S1 S4 et lt) (gf16_mul S2 S3 et lt)) D et lt]

/-- Source `chien_search`: positions `i` in `[0, 15)` with
`σ(α^(-i)) = 0`. -/
def chien_search (elp : List Nat) (et lt : List Nat) : List Nat :=
  (List.range 15).filter (fun i =>
    let ia := et.getD ((15 - i) % 15) 0
    let t1 := gf16_mul (elp.getD 0 0) (gf16_mul ia ia et lt) et lt
    let t2 := gf16_mul (elp.getD 1 0) ia et lt
    let t3 := elp.getD 2 0
    gf16_add t1 (gf16_add t2 t3) == 0)

namespace BchTerminal

/-- Source `encode` from `bch_terminal_implementation.py`.  The message
is the integer value of the 7-character binary string (so the bound
`m < 2^7` models the length check); `none` models the early `return` on
invalid parameters.  The codeword is formed with Python's integer `+`,
exactly as in the source. -/
def encode (n k message : Nat) : Option Nat :=
  if n ≠ 15 ∨ k ≠ 7 then none
  else if ¬ message < 2 ^ k then none
  else
    let m_shifted := message <<< (n - k)
    some (m_shifted + (poly_div m_shifted 465).2)

/-- Outcome of the terminal `decode`, mirroring its four exits:
parameter/length rejection, the "No errors detected." path, the
"Errors corrected at positions ..." path (with the decoded message),
and the "Errors cannot be corrected" path. -/
inductive DecodeResult where
  | invalid : DecodeResult
  | noErrors (msg : List Nat) : DecodeResult
  | corrected (positions : List Nat) (msg : List Nat) : DecodeResult
  | uncorrectable : DecodeResult
deriving DecidableEq

/-- Loop flipping the codeword bits at the listed (MSB-first) positions:
`for pos in error_positions: bits[pos] ^= 1`. -/
def flipBits (bits : List Nat) (positions : List Nat) : List Nat :=
  positions.foldl (fun bs p => bs.set p ((bs.getD p 0) ^^^ 1)) bits

/-- Source `decode` from `bch_terminal_implementation.py`.  The codeword
is the integer value of the 15-character binary string (`c < 2^15`
models the length check). -/
def decode (n k c : Nat) : DecodeResult :=
  if n ≠ 15 ∨ k ≠ 7 then .invalid
  else if ¬ c < 2 ^ n then .invalid
  else
    let bits := codeword_to_bits c n
    let syndromes := compute_syndromes bits exp_table log_table
    if syndromes.all (fun s => s == 0) then .noErrors (bits.take k)
    else
      match solve_error_locator syndromes exp_table log_table with
      | none => .uncorrectable
      | some elp =>
        let eps := chien_search elp exp_table log_table
        if 2 < eps.length then .uncorrectable
        else .corrected eps ((flipBits bits eps).take k)

end BchTerminal

namespace BchCoder

/-- Source `BchCoder.encode` from `api/bch/bch.py`: the codeword is
`message_poly * g` (sympy multiplication over GF(2), i.e. carry-less
multiplication on the bit-packed representation); the returned
`all_coeffs()` array carries exactly the codeword polynomial. -/
def encode (g message : Nat) : Nat := poly_mul message g

/-- Source `BchCoder.decode` from `api/bch/bch.py`: if
`received % g == 0` it returns `all_coeffs()` of the received
polynomial itself (the full word); otherwise it raises (`none`). -/
def decode (g received : Nat) : Option Nat :=
  if gf2_mod received g = 0 then some received else none

end BchCoder

/-- Source `np.trim_zeros(arr, trim = b)` as used by `padding_decode`:
remove the trailing zero entries. -/
def trimZerosBack (a : List Nat) : List Nat :=
  (a.reverse.dropWhile (fun x => x == 0)).reverse

/-- Source `padding_encode` from `api/bch/utils.py`: append
`(k - len(a) % k) % k` zeros so the length is divisible by `k`. -/
def padding_encode (a : List Nat) (k : Nat) : List Nat :=
  a ++ List.replicate ((k - a.length % k) % k) 0

/-- Source `padding_decode` from `api/bch/utils.py`: strip trailing
zeros (the block length `k` is accepted but unused, as in the source). -/
def padding_decode (a : List Nat) (k : Nat) : List Nat :=
  trimZerosBack a

/-- Exceptions that can escape `minimal_poly` (utils.py):
`coercionFailed` is sympy's `CoercionFailed`, raised by the constructor
`Poly(x - alpha ** ti, x, domain=GF(q))` (lines 40 and 51) whenever
`ti ≥ 1`, because the explicit `GF(q)` domain cannot coerce the
symbolic coefficient `-alpha**ti` into the finite field;
`nonScalarResidual` is the explicit
`raise Exception("Couldn't find minimal polynomial")` (line 47). -/
inductive MinPolyError where
  | coercionFailed : MinPolyError
  | nonScalarResidual : MinPolyError
deriving DecidableEq

/-- Sympy constructor `Poly(x - alpha ** t, x, domain=GF(q))` (utils.py
lines 40 and 51).  With the explicit `GF(q)` domain every coefficient
of the `x`-polynomial must be coerced into the finite field, and
`FiniteField.from_sympy` accepts only numeric constants: for `t ≥ 1`
the symbolic coefficient `-alpha**t` raises `CoercionFailed`; only for
`t = 0` the polynomial `x - 1 = x + 1` is built.  The result is the
constant coefficient (the leading coefficient is always 1). -/
def polyXMinusAlpha (t : Nat) : Except MinPolyError Nat :=
  if t = 0 then .ok 1 else .error .coercionFailed

/-- Multiplication step `poly = poly * Poly(x - alpha ** ti, x, ...)`
of `minimal_poly` (utils.py line 51): multiply the polynomial in `x` —
held as its `all_coeffs()` list, highest degree first — by the linear
factor `x + c`, where `c` is the factor's constant coefficient. -/
def mulLinear (p : List Nat) (c : Nat) : List Nat :=
  List.zipWith (fun u v => u ^^^ v) (p ++ [0]) (0 :: p.map (fun a => poly_mul a c))

/-- Closing step of `minimal_poly` (utils.py lines 44-49): reduce every
coefficient modulo the field's irreducible polynomial (`.trunc(q)` is
the identity over GF(2)), raise (`nonScalarResidual`) if any residual
has positive degree — over GF(2) a bit-packed residual has positive
degree iff its value is at least 2 — and otherwise return the constant
terms. -/
def closePoly (irr : Nat) (p : List Nat) : Except MinPolyError (Option (List Nat)) :=
  let polys := p.map (fun c => gf2_mod c irr)
  if polys.any (fun r => 2 ≤ r) then .error .nonScalarResidual
  else .ok (some (polys.map (fun r => r &&& 1)))

/-- Main loop of `minimal_poly` (utils.py) at `q = 2`, the only field
size the repository instantiates (`BchCodeGenerator` fixes `q = 2`):
double the coset element; on revisiting a checked element close the
coset, otherwise construct the next linear factor — which raises
`CoercionFailed` unless the new coset element is 0 — and extend the
conjugate product.  Fuel `n` models `for k in range(n)`. -/
def minPolyLoop (n irr : Nat) : Nat → Nat → List Bool → List Nat → Except MinPolyError (Option (List Nat))
  | 0, _, _, _ => .ok none
  | fuel + 1, ti, checked, poly =>
    let ti2 := ti * 2 % n
    if checked.getD ti2 false then closePoly irr poly
    else
      match polyXMinusAlpha ti2 with
      | .error e => .error e
      | .ok c => minPolyLoop n irr fuel ti2 (checked.set ti2 true) (mulLinear poly c)

/-- Source `minimal_poly(i, n, q, irr_poly)` from `api/bch/utils.py` at
`q = 2`.  `.error` models a raised exception (see `MinPolyError`),
`.ok none` the final `return None`, and `.ok (some cs)` the returned
polynomial (its `all_coeffs()` over GF(2)).  The initial
`Poly(x - alpha ** ti, x, domain=GF(q))` (line 40, after
`checked[ti] = True`) already raises `CoercionFailed` whenever
`i ≥ 1`. -/
def minimal_poly (i n irr : Nat) : Except MinPolyError (Option (List Nat)) :=
  match polyXMinusAlpha i with
  | .error e => .error e
  | .ok c => minPolyLoop n irr n i ((List.replicate n false).set i true) [1, c]

/-! ### Basic facts about `bit_length` and `Nat.size` -/

theorem size_half {n : Nat} (hn : n ≠ 0) : Nat.size n = Nat.size (n / 2) + 1 := by
  have key : ∀ k, Nat.size (n / 2) ≤ k ↔ Nat.size n ≤ k + 1 := by
    intro k
    rw [Nat.size_le, Nat.size_le, pow_succ]
    exact Nat.div_lt_iff_lt_mul (show 0 < 2 by norm_num)
  have h1 : Nat.size n ≤ Nat.size (n / 2) + 1 := (key (Nat.size (n / 2))).mp le_rfl
  have h2 : ¬ Nat.size n ≤ Nat.size (n / 2) := by
    intro hle
    rcases Nat.eq_zero_or_pos (Nat.size (n / 2)) with h0 | hpos
    · rw [h0, Nat.le_zero, Nat.size_eq_zero] at hle
      exact hn hle
    · have := (key (Nat.size (n / 2) - 1)).mpr (by omega)
      omega
  omega

theorem bit_length_go_eq {fuel n : Nat} (h : n ≤ fuel) : bit_length_go fuel n = Nat.size n := by
  induction fuel generalizing n with
  | zero =>
    have hn : n = 0 := by omega
    subst hn
    simp [bit_length_go, Nat.size_zero]
  | succ fuel ih =>
    by_cases h0 : n = 0
    · subst h0
      simp [bit_length_go, Nat.size_zero]
    · have hdiv : n / 2 ≤ fuel := by omega
      rw [bit_length_go, if_neg h0, ih hdiv, ← size_half h0]

theorem bit_length_eq (n : Nat) : bit_length n = Nat.size n := bit_length_go_eq le_rfl

theorem testBit_false_of_size_le {x i : Nat} (h : Nat.size x ≤ i) : x.testBit i = false :=
  Nat.testBit_lt_two_pow
    (lt_of_lt_of_le (Nat.lt_size_self x) (Nat.pow_le_pow_right (by norm_num) h))

theorem testBit_size_pred {x : Nat} (hx : x ≠ 0) : x.testBit (Nat.size x - 1) = true := by
  have hpos : 0 < Nat.size x := Nat.size_pos.mpr (Nat.pos_of_ne_zero hx)
  have h1 : 2 ^ (Nat.size x - 1) ≤ x := Nat.lt_size.mp (by omega)
  have h2 : x < 2 ^ Nat.size x := Nat.lt_size_self x
  have hdiv : x / 2 ^ (Nat.size x - 1) = 1 := by
    apply Nat.div_eq_of_lt_le (by simpa using h1)
    have hpow : 2 ^ Nat.size x = 2 * 2 ^ (Nat.size x - 1) := by
      rw [← pow_succ']
      congr 1
      omega
    omega
  rw [Nat.testBit_to_div_mod, hdiv]
  rfl

theorem size_xor_eq {x y : Nat} (h : Nat.size y < Nat.size x) : Nat.size (x ^^^ y) = Nat.size x := by
  have hx : x ≠ 0 := by
    intro h0
    subst h0
    simp [Nat.size_zero] at h
  apply le_antisymm
  · rw [Nat.size_le]
    apply Nat.lt_pow_two_of_testBit
    intro i hi
    rw [Nat.testBit_xor, testBit_false_of_size_le hi, testBit_false_of_size_le (by omega)]
    rfl
  · have ht : (x ^^^ y).testBit (Nat.size x - 1) = true := by
      rw [Nat.testBit_xor, testBit_size_pred hx, testBit_false_of_size_le (by omega)]
      rfl
    have hge := Nat.testBit_implies_ge ht
    have := Nat.lt_size.mpr hge
    omega

theorem size_xor_lt {x y : Nat} (hx : x ≠ 0) (h : Nat.size x = Nat.size y) :
    Nat.size (x ^^^ y) < Nat.size x := by
  have hy : y ≠ 0 := by
    intro h0
    subst h0
    rw [Nat.size_zero] at h
    exact hx (Nat.size_eq_zero.mp h)
  have hpos : 0 < Nat.size x := Nat.size_pos.mpr (Nat.pos_of_ne_zero hx)
  have hle : Nat.size (x ^^^ y) ≤ Nat.size x - 1 := by
    rw [Nat.size_le]
    apply Nat.lt_pow_two_of_testBit
    intro i hi
    rcases eq_or_lt_of_le hi with heq | hlt
    · rw [Nat.testBit_xor, ← heq, testBit_size_pred hx]
      have : y.testBit (Nat.size x - 1) = true := by
        rw [h]
        exact testBit_size_pred hy
      rw [this]
      rfl
    · rw [Nat.testBit_xor, testBit_false_of_size_le (by omega),
        testBit_false_of_size_le (by omega)]
      rfl
  omega

/-! ### GF(2) algebra of `poly_mul` and `poly_div` -/

theorem xor_shiftLeft (x y s : Nat) : (x ^^^ y) <<< s = x <<< s ^^^ y <<< s := by
  apply Nat.eq_of_testBit_eq
  intro i
  simp only [Nat.testBit_shiftLeft, Nat.testBit_xor]
  by_cases h : s ≤ i <;> simp [h, ge_iff_le]

theorem poly_mul_go_zero_right (fuel a : Nat) : poly_mul_go fuel a 0 = 0 := by
  cases fuel <;> simp [poly_mul_go]

theorem poly_mul_go_zero_left {fuel b : Nat} (h : b ≤ fuel) : poly_mul_go fuel 0 b = 0 := by
  induction fuel generalizing b with
  | zero => simp [poly_mul_go]
  | succ fuel ih =>
    by_cases h0 : b = 0
    · simp [h0, poly_mul_go]
    · rw [poly_mul_go, if_neg h0, Nat.zero_shiftLeft, ih]
      · simp
      · rw [Nat.shiftRight_one]
        omega

theorem poly_mul_zero_left (b : Nat) : poly_mul 0 b = 0 := poly_mul_go_zero_left le_rfl

theorem xor_left_comm (a b c : Nat) : a ^^^ (b ^^^ c) = b ^^^ (a ^^^ c) := by
  rw [← Nat.xor_assoc, Nat.xor_comm a b, Nat.xor_assoc]

theorem poly_mul_go_xor_left {fuel b : Nat} (h : b ≤ fuel) (x y : Nat) :
    poly_mul_go fuel (x ^^^ y) b = poly_mul_go fuel x b ^^^ poly_mul_go fuel y b := by
  induction fuel generalizing b x y with
  | zero => simp [poly_mul_go]
  | succ fuel ih =>
    by_cases h0 : b = 0
    · simp [h0, poly_mul_go]
    · have hdiv : b >>> 1 ≤ fuel := by
        rw [Nat.shiftRight_one]
        omega
      rw [poly_mul_go, if_neg h0, poly_mul_go, if_neg h0, poly_mul_go, if_neg h0,
        xor_shiftLeft, ih hdiv]
      by_cases hb1 : b &&& 1 = 1
      · rw [if_pos hb1, if_pos hb1, if_pos hb1]
        simp only [Nat.xor_assoc]
        rw [xor_left_comm y (poly_mul_go fuel (x <<< 1) (b >>> 1))]
      · rw [if_neg hb1, if_neg hb1, if_neg hb1]
        simp [Nat.zero_xor]

theorem poly_mul_xor_left (x y b : Nat) :
    poly_mul (x ^^^ y) b = poly_mul x b ^^^ poly_mul y b :=
  poly_mul_go_xor_left le_rfl x y

theorem shiftLeft_bit_decomp (b s : Nat) :
    b <<< s = ((b &&& 1) <<< s) ^^^ ((b >>> 1) <<< (s + 1)) := by
  apply Nat.eq_of_testBit_eq
  intro i
  simp only [Nat.testBit_shiftLeft, Nat.testBit_xor, Nat.testBit_shiftRight, ge_iff_le]
  rcases Nat.lt_trichotomy i s with hlt | heq | hgt
  · have h1 : ¬ s ≤ i := by omega
    have h2 : ¬ s + 1 ≤ i := by omega
    simp [h1, h2]
  · subst heq
    have h2 : ¬ i + 1 ≤ i := by omega
    have hand : (b % 2).testBit 0 = b.testBit 0 := by
      rw [Nat.testBit_to_div_mod, Nat.testBit_to_div_mod]
      simp [Nat.mod_mod_of_dvd]
    simp [h2, hand]
  · have h1 : s ≤ i := by omega
    have h2 : s + 1 ≤ i := by omega
    have hand : (b % 2).testBit (i - s) = false := by
      apply Nat.testBit_lt_two_pow
      have hmod : b % 2 < 2 := Nat.mod_lt b (by norm_num)
      have hpow : 2 ≤ 2 ^ (i - s) := by
        have h3 : 1 ≤ i - s := by omega
        calc 2 = 2 ^ 1 := rfl
        _ ≤ 2 ^ (i - s) := Nat.pow_le_pow_right (by norm_num) h3
      omega
    have harg : 1 + (i - (s + 1)) = i - s := by omega
    simp [h1, h2, harg, hand]

theorem poly_mul_go_one_shift {fuel b : Nat} (h : b ≤ fuel) (s : Nat) :
    poly_mul_go fuel (1 <<< s) b = b <<< s := by
  induction fuel generalizing b s with
  | zero =>
    have hb : b = 0 := by omega
    simp [hb, poly_mul_go, Nat.zero_shiftLeft]
  | succ fuel ih =>
    by_cases h0 : b = 0
    · simp [h0, poly_mul_go, Nat.zero_shiftLeft]
    · have hdiv : b >>> 1 ≤ fuel := by
        rw [Nat.shiftRight_one]
        omega
      rw [poly_mul_go, if_neg h0]
      have hshift : (1 <<< s) <<< 1 = 1 <<< (s + 1) := (Nat.shiftLeft_add 1 s 1).symm
      rw [hshift, ih hdiv (s + 1)]
      have hlow : (if b &&& 1 = 1 then 1 <<< s else 0) = (b &&& 1) <<< s := by
        by_cases hb1 : b &&& 1 = 1
        · rw [if_pos hb1, hb1]
        · have hb0 : b &&& 1 = 0 := by
            rw [Nat.and_one_is_mod]
            rw [Nat.and_one_is_mod] at hb1
            omega
          rw [if_neg hb1, hb0, Nat.zero_shiftLeft]
      rw [hlow, ← shiftLeft_bit_decomp]

theorem poly_mul_one_shift (s b : Nat) : poly_mul (1 <<< s) b = b <<< s :=
  poly_mul_go_one_shift le_rfl s

theorem poly_mul_one_left (b : Nat) : poly_mul 1 b = b := by
  have := poly_mul_one_shift 0 b
  simpa [Nat.shiftLeft_zero] using this

theorem poly_mul_go_size {fuel b : Nat} (hf : b ≤ fuel) (hb : b ≠ 0) :
    ∀ a, a ≠ 0 → Nat.size (poly_mul_go fuel a b) = Nat.size a + Nat.size b - 1 := by
  induction fuel generalizing b with
  | zero => omega
  | succ fuel ih =>
    intro a ha
    rw [poly_mul_go, if_neg hb]
    by_cases hb2 : b >>> 1 = 0
    · have hb1 : b = 1 := by
        rw [Nat.shiftRight_one] at hb2
        omega
      subst hb1
      simp [poly_mul_go_zero_right, Nat.size_one]
    · have hfuel : b >>> 1 ≤ fuel := by
        rw [Nat.shiftRight_one]
        omega
      have ha1 : a <<< 1 ≠ 0 := by
        intro h0
        apply ha
        have := congrArg Nat.size h0
        rw [Nat.size_shiftLeft (by exact ha) 1] at this
        simp [Nat.size_zero] at this
      have hrec := ih hfuel hb2 (a <<< 1) ha1
      rw [Nat.size_shiftLeft ha 1] at hrec
      have hsb : Nat.size b = Nat.size (b >>> 1) + 1 := by
        rw [Nat.shiftRight_one]
        exact size_half hb
      have hsb2 : 0 < Nat.size (b >>> 1) := Nat.size_pos.mpr (Nat.pos_of_ne_zero hb2)
      have hlow : Nat.size (if b &&& 1 = 1 then a else 0) <
          Nat.size (poly_mul_go fuel (a <<< 1) (b >>> 1)) := by
        rw [hrec]
        split
        · omega
        · rw [Nat.size_zero]
          have : 0 < Nat.size a := Nat.size_pos.mpr (Nat.pos_of_ne_zero ha)
          omega
      rw [Nat.xor_comm, size_xor_eq hlow, hrec]
      omega

theorem poly_mul_size {a b : Nat} (ha : a ≠ 0) (hb : b ≠ 0) :
    Nat.size (poly_mul a b) = Nat.size a + Nat.size b - 1 :=
  poly_mul_go_size le_rfl hb a ha

theorem polyDivGo_rem_zero {g : Nat} (hg : g ≠ 0) :
    ∀ fuel a q0, Nat.size a ≤ fuel → (∃ qq, poly_mul qq g = a) →
      (polyDivGo g fuel q0 a).2 = 0 := by
  intro fuel
  induction fuel with
  | zero =>
    intro a q0 ha _
    have h0 : a = 0 := Nat.size_eq_zero.mp (by omega)
    subst h0
    rfl
  | succ fuel ih =>
    intro a q0 ha hm
    by_cases ha0 : a = 0
    · subst ha0
      rw [polyDivGo, if_neg (by simp)]
    · obtain ⟨qq, hqq⟩ := hm
      have hqq0 : qq ≠ 0 := by
        intro h0
        subst h0
        rw [poly_mul_zero_left] at hqq
        exact ha0 hqq.symm
      have hsz : Nat.size a = Nat.size qq + Nat.size g - 1 := by
        rw [← hqq]
        exact poly_mul_size hqq0 hg
      have hqpos : 0 < Nat.size qq := Nat.size_pos.mpr (Nat.pos_of_ne_zero hqq0)
      have hgpos : 0 < Nat.size g := Nat.size_pos.mpr (Nat.pos_of_ne_zero hg)
      have hge : Nat.size g ≤ Nat.size a := by omega
      rw [polyDivGo, if_pos ?cond]
      case cond =>
        refine ⟨?_, ha0⟩
        unfold pdeg
        rw [bit_length_eq, bit_length_eq]
        omega
      have hshift : bit_length a - bit_length g = Nat.size a - Nat.size g := by
        rw [bit_length_eq, bit_length_eq]
      have hmult : a ^^^ (g <<< (bit_length a - bit_length g)) =
          poly_mul (qq ^^^ (1 <<< (bit_length a - bit_length g))) g := by
        rw [poly_mul_xor_left, hqq, poly_mul_one_shift]
      have hszstep : Nat.size (g <<< (bit_length a - bit_length g)) = Nat.size a := by
        rw [Nat.size_shiftLeft hg, hshift]
        omega
      have hlt : Nat.size (a ^^^ (g <<< (bit_length a - bit_length g))) < Nat.size a :=
        size_xor_lt ha0 hszstep.symm
      exact ih _ _ (by omega) ⟨_, hmult.symm⟩

/-- Every GF(2) multiple of a nonzero `g` has zero remainder under
`poly_div` by `g`. -/
theorem poly_mul_gf2_mod (g m : Nat) (hg : g ≠ 0) : gf2_mod (poly_mul m g) g = 0 := by
  unfold gf2_mod poly_div
  exact polyDivGo_rem_zero hg _ _ 0 (by rw [bit_length_eq]) ⟨m, rfl⟩

/-! ### Claims -/

/-- C1.  The claim asserts the (15,7) error-correction guarantee: for
every 7-bit message and every error set `E` with `|E| ≤ 2`, decoding
the encoded codeword with the bits at positions `E` flipped recovers
the message and reports exactly `E`.  The code violates it: encoding
the all-zero message gives the all-zero codeword, and flipping the
single bit at position 0 (so `E = {0}`, received word `1 <<< 14`)
makes `decode` declare the word uncorrectable (for any single error the
determinant `D = S1·S3 + S2·S2` vanishes).  Moreover even a weight-2
pattern on the all-zero codeword, `E = {2, 5}`, is "corrected" at
positions `{5, 9}` and yields a wrong message, because the syndromes
are computed against MSB-first bit indices while the generator's roots
correspond to LSB-first ones and the two locator coefficients are the
swapped Cramer solutions. -/
theorem claim_C1_code_eval :
    BchTerminal.encode 15 7 0 = some 0 ∧
    BchTerminal.decode 15 7 (1 <<< 14) = .uncorrectable ∧
    BchTerminal.decode 15 7 ((1 <<< 12) ^^^ (1 <<< 9)) =
      .corrected [5, 9] [0, 0, 1, 0, 0, 0, 0] := by
  decide

/-- C2.  The claim asserts `BchCoder.decode (BchCoder.encode m) = m`
for zero injected errors.  The code violates it: `encode` is the
non-systematic product `m · g` and `decode` returns the full received
word, so for the generator `g = 0b110111011` synthesized for
`(n, b, d) = (15, 7, 3)` and the message polynomial `m = 1` the round
trip returns the codeword `443`, not the message `1`. -/
theorem claim_C2_code_eval :
    BchCoder.encode 443 1 = 443 ∧
    BchCoder.decode 443 (BchCoder.encode 443 1) = some 443 ∧
    (443 : Nat) ≠ 1 := by
  decide

/-- C4.  The claim asserts that on a received word with zero syndrome
(`r mod g = 0`) decode declares no errors and returns exactly the
leading `k` bits.  The code violates it twice: `BchCoder.decode`
returns the full received word (for `r = g = 443`, a word whose
leading-7-bits value is `1`, it returns `443`); and the terminal
`decode` of the valid codeword `465 = encode 15 7 1` (which satisfies
`r mod g = 0`) does not take the no-error path at all — its four GF(16)
syndromes are nonzero, so it reports "errors corrected" at the empty
position list instead. -/
theorem claim_C4_code_eval :
    gf2_mod 443 443 = 0 ∧
    BchCoder.decode 443 443 = some 443 ∧
    (443 : Nat) >>> 8 = 1 ∧
    (443 : Nat) ≠ 1 ∧
    BchTerminal.encode 15 7 1 = some 465 ∧
    gf2_mod 465 465 = 0 ∧
    BchTerminal.decode 15 7 465 = .corrected [] [0, 0, 0, 0, 0, 0, 1] := by
  decide

/-- C8 counterexample.  The claim asserts `exp_table[14] = 1`; in fact
`exp_table[14] = α^14 = 9` (the cycle closes one step later, at
`exp_table[15]`). -/
theorem claim_C8_counterexample : exp_table.getD 14 0 ≠ 1 := by
  decide

/-- C8 (amended).  The GF(16) tables satisfy `exp_table[0] = 1`,
`exp_table[15] = 1` (the cycle closes after order 15 steps, so index 15
— not 14 — holds 1 again), and `log_table[exp_table[i]] = i` for every
`i` in `0..14`. -/
theorem claim_C8_amended :
    exp_table.getD 0 0 = 1 ∧
    exp_table.getD 15 0 = 1 ∧
    ∀ i, i < 15 → log_table.getD (exp_table.getD i 0) 0 = i := by
  decide

/-- C8 witness: the amended claim applied at `i = 7`. -/
theorem claim_C8_witness : log_table.getD (exp_table.getD 7 0) 0 = 7 :=
  claim_C8_amended.2.2 7 (by decide)

/-- C3.  Divisibility invariant, confirmed for both encoders: every
codeword produced by `BchCoder.encode` (the product `m · g`, for any
nonzero generator — in particular any synthesized one) has zero
remainder modulo `g`, and every codeword of the terminal (15,7) encoder
has zero remainder modulo the generator `0b111010001 = 465`. -/
theorem claim_C3_divisibility :
    (∀ g m : Nat, g ≠ 0 → gf2_mod (BchCoder.encode g m) g = 0) ∧
    (∀ m, m < 128 →
      (BchTerminal.encode 15 7 m).isSome ∧
      gf2_mod ((BchTerminal.encode 15 7 m).getD 0) 465 = 0) := by
  constructor
  · intro g m hg
    exact poly_mul_gf2_mod g m hg
  · decide

/-- C3 witness: the invariant applied to the synthesized generator
`443` with message `5`, and to the terminal encoder with message
`85 = 0b1010101`. -/
theorem claim_C3_witness :
    gf2_mod (BchCoder.encode 443 5) 443 = 0 ∧
    (BchTerminal.encode 15 7 85).isSome ∧
    gf2_mod ((BchTerminal.encode 15 7 85).getD 0) 465 = 0 :=
  ⟨claim_C3_divisibility.1 443 5 (by decide),
    (claim_C3_divisibility.2 85 (by decide)).1,
    (claim_C3_divisibility.2 85 (by decide)).2⟩

/-- C5.  The t = 2 error-locator solver, confirmed: on any syndrome
quadruple it returns `none` (Uncorrectable) exactly when the
determinant `D = S1·S3 + S2·S2` vanishes, and otherwise the locator
`[1, σ1, σ2]` with `σ1 = (S3·S3 + S2·S4)/D` and
`σ2 = (S1·S4 + S2·S3)/D` in GF(16), as the spec-side description
`solveErrorLocatorSpec` states. -/
theorem claim_C5_solver :
    ∀ S1 S2 S3 S4 : Nat,
      solve_error_locator [S1, S2, S3, S4] exp_table log_table =
        solveErrorLocatorSpec S1 S2 S3 S4 exp_table log_table ∧
      (solve_error_locator [S1, S2, S3, S4] exp_table log_table = none ↔
        gf16_add (gf16_mul S1 S3 exp_table log_table)
          (gf16_mul S2 S2 exp_table log_table) = 0) := by
  intro S1 S2 S3 S4
  constructor
  · simp only [solve_error_locator, solveErrorLocatorSpec, gf16_div]
    by_cases hD : gf16_add (gf16_mul S1 S3 exp_table log_table)
        (gf16_mul S2 S2 exp_table log_table) = 0
    · simp [hD]
    · simp [hD, gf16_inv]
  · simp only [solve_error_locator]
    by_cases hD : gf16_add (gf16_mul S1 S3 exp_table log_table)
        (gf16_mul S2 S2 exp_table log_table) = 0
    · simp [hD]
    · simp [hD, gf16_inv]

/-- C7 counterexample.  The claim asserts
`gf16_inv a = exp_table[14 - log_table[a]]`; at `a = 1` the inverse is
`1` while `exp_table[14 - log_table[1]] = exp_table[14] = 9`. -/
theorem claim_C7_counterexample :
    gf16_inv 1 exp_table log_table = some 1 ∧
    exp_table.getD (14 - log_table.getD 1 0) 0 = 9 ∧ (9 : Nat) ≠ 1 := by
  decide

/-- C7 (amended).  Field inversion fails (ZeroDivisionError, modelled
as `none`) exactly when its argument is 0; for every nonzero `a < 16`
it returns `exp_table[order - log_table[a]]` with `order = 15` — the
subtraction from `order`, not from `order - 1 = 14` as claimed — an
index that the doubled exp table makes valid even at `log_table[a] = 0`
(where it reads `exp_table[15] = exp_table[0] = 1`). -/
theorem claim_C7_amended :
    (∀ a, gf16_inv a exp_table log_table = none ↔ a = 0) ∧
    (∀ a, a < 16 → a ≠ 0 →
      gf16_inv a exp_table log_table =
        some (exp_table.getD (15 - log_table.getD a 0) 0)) := by
  constructor
  · intro a
    unfold gf16_inv
    by_cases h : a = 0 <;> simp [h]
  · decide

/-- C7 witness: the amended claim applied at `a = 2`. -/
theorem claim_C7_witness :
    gf16_inv 2 exp_table log_table =
      some (exp_table.getD (15 - log_table.getD 2 0) 0) :=
  claim_C7_amended.2 2 (by decide) (by decide)

/-- C6 counterexample.  The claim asserts that a root count different
from 2 makes `decode` declare the word Uncorrectable and apply no bit
flips.  For the received word `465` (a valid codeword) the solver
succeeds with locator `[1, 15, 12]`, the Chien search finds 0 roots —
a count different from 2 — yet `decode` does not declare the word
Uncorrectable: it reports corrections at the empty position list and
returns a message. -/
theorem claim_C6_counterexample :
    solve_error_locator
        (compute_syndromes (codeword_to_bits 465 15) exp_table log_table)
        exp_table log_table = some [1, 15, 12] ∧
    chien_search [1, 15, 12] exp_table log_table = [] ∧
    BchTerminal.decode 15 7 465 = .corrected [] [0, 0, 0, 0, 0, 0, 1] ∧
    BchTerminal.decode 15 7 465 ≠ .uncorrectable := by
  decide

/-- C6 (amended).  After a successful locator solve the terminal
`decode` declares Uncorrectable only when the Chien search finds more
than 2 roots; whenever it finds at most 2 roots — including 0 or 1,
counts different from the locator degree — it flips the bits at exactly
the found positions and returns a message.  Moreover for locators
`[1, σ1, σ2]` with GF(16) coefficients the root count never exceeds 2,
so this Uncorrectable branch never fires. -/
theorem claim_C6_amended :
    (∀ c elp, c < 2 ^ 15 →
      ¬ (compute_syndromes (codeword_to_bits c 15) exp_table log_table).all
          (fun s => s == 0) = true →
      solve_error_locator
          (compute_syndromes (codeword_to_bits c 15) exp_table log_table)
          exp_table log_table = some elp →
      ((BchTerminal.decode 15 7 c = .uncorrectable ↔
          2 < (chien_search elp exp_table log_table).length) ∧
        ((chien_search elp exp_table log_table).length ≤ 2 →
          BchTerminal.decode 15 7 c =
            .corrected (chien_search elp exp_table log_table)
              ((BchTerminal.flipBits (codeword_to_bits c 15)
                  (chien_search elp exp_table log_table)).take 7)))) ∧
    (∀ s1, s1 < 16 → ∀ s2, s2 < 16 →
      (chien_search [1, s1, s2] exp_table log_table).length ≤ 2) := by
  constructor
  · intro c elp hc hs hsolve
    have hdec : BchTerminal.decode 15 7 c =
        (if 2 < (chien_search elp exp_table log_table).length then .uncorrectable
         else .corrected (chien_search elp exp_table log_table)
           ((BchTerminal.flipBits (codeword_to_bits c 15)
               (chien_search elp exp_table log_table)).take 7)) := by
      unfold BchTerminal.decode
      rw [if_neg (by simp), if_neg (by simpa using hc), if_neg hs, hsolve]
    rw [hdec]
    constructor
    · by_cases h2 : 2 < (chien_search elp exp_table log_table).length
      · simp [h2]
      · simp [h2]
    · intro h2
      rw [if_neg (by omega)]
  · decide

/-- C6 witness: the amended claim applied to the received word `4608`
(the all-zero codeword with bits 2 and 5 flipped), whose solved locator
is `[1, 11, 2]`. -/
theorem claim_C6_witness :
    (BchTerminal.decode 15 7 4608 = .uncorrectable ↔
      2 < (chien_search [1, 11, 2] exp_table log_table).length) ∧
    ((chien_search [1, 11, 2] exp_table log_table).length ≤ 2 →
      BchTerminal.decode 15 7 4608 =
        .corrected (chien_search [1, 11, 2] exp_table log_table)
          ((BchTerminal.flipBits (codeword_to_bits 4608 15)
              (chien_search [1, 11, 2] exp_table log_table)).take 7)) :=
  claim_C6_amended.1 4608 [1, 11, 2] (by decide) (by decide) (by decide)

/-- C9.  The claim asserts that `minimal_poly` raises only as the
non-scalar-residual guard of a closed cyclotomic coset and otherwise
returns the coset's polynomial over GF(2).  The code fails earlier: the
constructor `Poly(x - alpha ** ti, x, domain=GF(q))` raises sympy's
`CoercionFailed` for every `ti ≥ 1` because the explicit finite-field
domain cannot coerce the symbolic coefficient `-alpha**ti`.  So every
call the repository makes — `i ∈ {7, 8}` from
`BchCodeGenerator(15, 7, 3).gen()` behind the HTTP API and
`i ∈ {1, 2, 3, 4}` from the test's `(15, 1, 5)` configuration, over the
irreducible polynomial `alpha^4 + alpha + 1 = 19` — raises before any
conjugate product is formed or any residual checked, and the guard of
lines 45-47 is unreachable.  Only `i = 0` returns a polynomial: `x + 1`,
whose one-element coset closes immediately with scalar residuals. -/
theorem claim_C9_code_eval :
    minimal_poly 7 15 19 = .error .coercionFailed ∧
    minimal_poly 8 15 19 = .error .coercionFailed ∧
    minimal_poly 1 15 19 = .error .coercionFailed ∧
    minimal_poly 0 15 19 = .ok (some [1, 1]) :=
  ⟨rfl, rfl, rfl, rfl⟩

/-! ### Helpers for C10 -/

theorem dropWhile_zero_replicate_append (m : Nat) (l : List Nat) :
    List.dropWhile (fun x => x == 0) (List.replicate m 0 ++ l) =
      List.dropWhile (fun x => x == 0) l := by
  induction m with
  | zero => rfl
  | succ m ih =>
    rw [List.replicate_succ, List.cons_append, List.dropWhile_cons]
    exact (if_pos rfl).trans ih

theorem trimZerosBack_append_zeros (a : List Nat) (m : Nat) :
    trimZerosBack (a ++ List.replicate m 0) = trimZerosBack a := by
  unfold trimZerosBack
  rw [List.reverse_append, List.reverse_replicate, dropWhile_zero_replicate_append]

theorem trimZerosBack_eq_self_iff (a : List Nat) :
    trimZerosBack a = a ↔ a.getLast? ≠ some 0 := by
  unfold trimZerosBack
  rcases hr : a.reverse with _ | ⟨h, t⟩
  · have ha : a = [] := by
      have := congrArg List.reverse hr
      simpa using this
    subst ha
    simp
  · have hgl : a.getLast? = some h := by
      rw [← List.head?_reverse, hr]
      rfl
    by_cases h0 : h = 0
    · subst h0
      have hstep : List.dropWhile (fun x => x == 0) (0 :: t) =
          List.dropWhile (fun x => x == 0) t := by
        simp [List.dropWhile_cons]
      rw [hstep]
      constructor
      · intro he
        exfalso
        have hlen1 : (List.dropWhile (fun x => x == 0) t).length ≤ t.length :=
          (List.dropWhile_sublist _).length_le
        have hlen2 := congrArg List.length he
        have hlen3 := congrArg List.length hr
        simp [List.length_reverse] at hlen2 hlen3
        omega
      · intro hne
        exact absurd hgl hne
    · have hstep : List.dropWhile (fun x => x == 0) (h :: t) = h :: t := by
        simp [List.dropWhile_cons, h0]
      rw [hstep, ← hr, List.reverse_reverse]
      simp [hgl, h0]

/-- C10.  Confirmed: for every array and every block length `k ≥ 1`,
decoding the padded array strips all trailing zeros of the original —
so the round trip returns the array itself exactly when it is empty or
its last entry is nonzero (`getLast? ≠ some 0`), and otherwise it
silently drops the original's trailing zero bits. -/
theorem claim_C10_padding :
    ∀ (a : List Nat) (k : Nat), 1 ≤ k →
      padding_decode (padding_encode a k) k = trimZerosBack a ∧
      (padding_decode (padding_encode a k) k = a ↔ a.getLast? ≠ some 0) := by
  intro a k _
  have h1 : padding_decode (padding_encode a k) k = trimZerosBack a := by
    unfold padding_decode padding_encode
    exact trimZerosBack_append_zeros a _
  refine ⟨h1, ?_⟩
  rw [h1]
  exact trimZerosBack_eq_self_iff a

/-- C10 witness: the round trip applied to `[1, 0]` with block length
`3` (padding it to `[1, 0, 0]`). -/
theorem claim_C10_witness :
    padding_decode (padding_encode [1, 0] 3) 3 = trimZerosBack [1, 0] ∧
    (padding_decode (padding_encode [1, 0] 3) 3 = [1, 0] ↔
      ([1, 0] : List Nat).getLast? ≠ some 0) :=
  claim_C10_padding [1, 0] 3 (by decide)

